import Mathlib

/-!
Verification of the graph-execution engine in `pyiron_contrib/protocol/graph.py`.

The Python classes `Vertex`, `Graph`, `Vertices`, `Edges` (and the `DotDict`
base) are shallowly embedded as Lean structures and functions.  Python `dict`s
are modelled as association lists with Python's lookup/assignment semantics
(first matching key wins on lookup; assignment replaces the value of an
existing key in place, otherwise appends).  Mutating Python methods are
modelled in a state-passing style `state -> Option PyErr × state`: the error
component records a raised exception, and the state component is the object
state after the call (for a raise, the state at the moment of the raise, since
an exception aborts the remaining statements).
-/

/-- Python exceptions raised by the code under verification. -/
inductive PyErr where
  | typeError
  | valueError
  | keyError
  | indexError
deriving DecidableEq

/-- Opaque Python data values flowing through vertex IO channels.  The engine
never inspects these, it only stores and forwards them. -/
inductive PyData where
  | pyNone
  | pyInt (n : Int)
  | pyStr (s : String)
  | pyList (xs : List PyData)

/-- Python `d[k]` lookup on an association list: first matching key wins. -/
def dictLookup {K A : Type} [DecidableEq K] : List (K × A) → K → Option A
  | [], _ => none
  | (k', a) :: t, k => if k' = k then some a else dictLookup t k

/-- Python `d[k] = v` assignment: replace the value at the first matching key,
otherwise append a new entry. -/
def dictSet {K A : Type} [DecidableEq K] : List (K × A) → K → A → List (K × A)
  | [], k, v => [(k, v)]
  | (k', a) :: t, k, v => if k' = k then (k, v) :: t else (k', a) :: dictSet t k v

/-- The key list of a Python dict, in insertion order. -/
def dictKeys {K A : Type} (d : List (K × A)) : List K :=
  d.map Prod.fst

theorem dictLookup_dictSet_self {K A : Type} [DecidableEq K]
    (d : List (K × A)) (k : K) (v : A) :
    dictLookup (dictSet d k v) k = some v := by
  induction d with
  | nil => simp [dictSet, dictLookup]
  | cons p t ih =>
    obtain ⟨k', a⟩ := p
    by_cases h : k' = k
    · simp [dictSet, dictLookup, h]
    · simp [dictSet, dictLookup, h, ih]

theorem dictLookup_dictSet_ne {K A : Type} [DecidableEq K]
    (d : List (K × A)) (k k' : K) (v : A) (h : k' ≠ k) :
    dictLookup (dictSet d k v) k' = dictLookup d k' := by
  induction d with
  | nil => simp [dictSet, dictLookup, h.symm]
  | cons p t ih =>
    obtain ⟨k0, a⟩ := p
    by_cases h0 : k0 = k
    · subst h0
      simp [dictSet, dictLookup, h.symm]
    · simp [dictSet, dictLookup, h0, ih]

theorem mem_dictKeys_dictSet {K A : Type} [DecidableEq K]
    (d : List (K × A)) (k k' : K) (v : A) :
    k' ∈ dictKeys (dictSet d k v) ↔ k' ∈ dictKeys d ∨ k' = k := by
  induction d with
  | nil => simp [dictSet, dictKeys]
  | cons p t ih =>
    obtain ⟨k0, a⟩ := p
    by_cases h0 : k0 = k
    · subst h0
      simp [dictSet, dictKeys]
      tauto
    · simp [dictSet, dictKeys, h0] at ih ⊢
      tauto

theorem dictKeys_dictSet_of_mem {K A : Type} [DecidableEq K]
    (d : List (K × A)) (k : K) (v : A) (h : k ∈ dictKeys d) :
    dictKeys (dictSet d k v) = dictKeys d := by
  induction d with
  | nil => simp [dictKeys] at h
  | cons p t ih =>
    obtain ⟨k0, a⟩ := p
    by_cases h0 : k0 = k
    · subst h0
      simp [dictSet, dictKeys]
    · have ht : k ∈ dictKeys t := by
        have h' : k = k0 ∨ k ∈ dictKeys t := by simpa [dictKeys] using h
        rcases h' with h' | h'
        · exact absurd h'.symm h0
        · exact h'
      simp [dictSet, dictKeys, h0]
      simpa [dictKeys] using ih ht

theorem dictLookup_mem {K A : Type} [DecidableEq K]
    (d : List (K × A)) (k : K) (a : A) (h : dictLookup d k = some a) :
    (k, a) ∈ d := by
  induction d with
  | nil => simp [dictLookup] at h
  | cons p t ih =>
    obtain ⟨k0, a0⟩ := p
    by_cases h0 : k0 = k
    · subst h0
      simp [dictLookup] at h
      subst h
      exact List.mem_cons_self _ _
    · simp [dictLookup, h0] at h
      exact List.mem_cons_of_mem _ (ih h)

theorem mem_dictKeys_iff_lookup {K A : Type} [DecidableEq K]
    (d : List (K × A)) (k : K) :
    k ∈ dictKeys d ↔ ∃ a, dictLookup d k = some a := by
  induction d with
  | nil => simp [dictKeys, dictLookup]
  | cons p t ih =>
    obtain ⟨k0, a0⟩ := p
    by_cases h0 : k0 = k
    · subst h0
      constructor
      · intro _
        exact ⟨a0, by simp [dictLookup]⟩
      · intro _
        exact List.mem_cons_self _ _
    · constructor
      · intro h'
        rcases List.mem_cons.mp h' with h' | h'
        · exact absurd h'.symm h0
        · obtain ⟨a, ha⟩ := ih.mp h'
          exact ⟨a, by simp [dictLookup, h0, ha]⟩
      · intro h'
        obtain ⟨a, ha⟩ := h'
        have ht : dictLookup t k = some a := by
          simpa [dictLookup, h0] using ha
        exact List.mem_cons_of_mem _ (ih.mpr ⟨a, ht⟩)

theorem dictLookup_of_mem_nodup {K A : Type} [DecidableEq K]
    (d : List (K × A)) (k : K) (a : A)
    (hnodup : (dictKeys d).Nodup) (h : (k, a) ∈ d) :
    dictLookup d k = some a := by
  induction d with
  | nil => simp at h
  | cons p t ih =>
    obtain ⟨k0, a0⟩ := p
    have hnd : k0 ∉ dictKeys t ∧ (dictKeys t).Nodup := by
      simpa [dictKeys] using hnodup
    rcases List.mem_cons.mp h with h | h
    · injection h with h1 h2
      subst h1
      subst h2
      simp [dictLookup]
    · have hk0 : k0 ≠ k := by
        intro he
        subst he
        exact hnd.1 (List.mem_map.mpr ⟨(k0, a), h, rfl⟩)
      simp [dictLookup, hk0]
      exact ih hnd.2 h

theorem mem_dictSet {K A : Type} [DecidableEq K]
    (d : List (K × A)) (k : K) (v : A) (p : K × A) (h : p ∈ dictSet d k v) :
    p = (k, v) ∨ p ∈ d := by
  induction d with
  | nil => simp [dictSet] at h; simp [h]
  | cons q t ih =>
    obtain ⟨k0, a0⟩ := q
    by_cases h0 : k0 = k
    · subst h0
      simp [dictSet] at h
      rcases h with h | h
      · exact Or.inl (by simp [h])
      · exact Or.inr (List.mem_cons_of_mem _ h)
    · simp [dictSet, h0] at h
      rcases h with h | h
      · exact Or.inr (by simp [h])
      · rcases ih h with h | h
        · exact Or.inl h
        · exact Or.inr (List.mem_cons_of_mem _ h)

/-- The engine state of a `Vertex` (graph.py `Vertex.__init__`): its name
inside the owning collection (`None` until inserted), the step counter
`clock` (initialized to 0), the current reported state `_vertex_state`,
the declared state set `possible_vertex_states`, plus its IO and abstract
computation.  `input` holds the resolved input mapping (`Input.resolve`,
whose io.py source is not in the repository snapshot, is modelled from the
spec as yielding the currently bound values), `output` the per-channel
pushed-value logs, and `function` the vertex-specific computation mapping
resolved inputs to produced outputs, per the abstract-method contract. -/
structure Vertex where
  vertex_name : Option String
  clock : Nat
  vertex_state : String
  possible_vertex_states : List String
  input : List (String × PyData)
  output : List (String × List PyData)
  function : List (String × PyData) → List (String × PyData)

/-- graph.py `Vertex.DEFAULT_STATE`. -/
def Vertex.DEFAULT_STATE : String := "next"

/-- A fresh vertex as produced by `Vertex.__init__`: clock 0, state `"next"`,
declared state set `["next"]`, empty IO. -/
def Vertex.mk0 (nm : Option String) (f : List (String × PyData) → List (String × PyData)) :
    Vertex :=
  { vertex_name := nm
    clock := 0
    vertex_state := Vertex.DEFAULT_STATE
    possible_vertex_states := [Vertex.DEFAULT_STATE]
    input := []
    output := []
    function := f }

/-- The `vertex_state` property setter: rejects states outside
`possible_vertex_states` with a ValueError, otherwise stores the new state. -/
def Vertex.set_vertex_state (v : Vertex) (s : String) : Option PyErr × Vertex :=
  if s ∈ v.possible_vertex_states then (none, { v with vertex_state := s })
  else (some PyErr.valueError, v)

/-- `Output` channel push, modelled from the spec: an output Channel is an
append-only log, and `update_and_archive` pushes each produced value onto
the channel of the same name. -/
def pushChannel (o : List (String × List PyData)) (k : String) (x : PyData) :
    List (String × List PyData) :=
  match dictLookup o k with
  | some xs => dictSet o k (xs ++ [x])
  | none => o ++ [(k, [x])]

/-- graph.py `Vertex.update_and_archive`: push every produced output value
onto the corresponding output channel (`_update_archive` is a no-op). -/
def Vertex.update_and_archive (v : Vertex) (output_data : List (String × PyData)) :
    Vertex :=
  { v with output := output_data.foldl (fun o p => pushChannel o p.1 p.2) v.output }

/-- graph.py `Vertex.execute`: resolve the input, run the vertex's
computation on it, and push the produced outputs.  (The `print` calls are
pure logging.)  Note that no statement of `execute` touches `clock`. -/
def Vertex.execute (v : Vertex) : Vertex :=
  let output_data := v.function v.input
  v.update_and_archive output_data

/-- A Python value as it can appear in collection-insertion positions and in
`set_flow_chain` argument lists: a `Vertex`, a string, or other data. -/
inductive PyVal where
  | vertex (v : Vertex)
  | str (s : String)
  | data (d : PyData)

/-- Python `isinstance(x, Vertex)`. -/
def PyVal.isVertex : PyVal → Bool
  | PyVal.vertex _ => true
  | _ => false

/-- The `Vertices` collection: a name-keyed Python dict of vertices
(attribute-style access on the `DotDict` base delegates to item access). -/
abbrev Vertices := List (String × Vertex)

/-- One `Edges` table row: a dict from a vertex state to the name of the
successor vertex, where the Python value `None` (here `Option.none`) is the
"no successor" marker. -/
abbrev EdgeRow := List (String × Option String)

/-- The `Edges` transition table: a dict keyed by vertex name (the name
attribute of a vertex, hence an `Option String`) holding one row per vertex. -/
abbrev Edges := List (Option String × EdgeRow)

/-- graph.py `Vertices.__setitem__`: reject non-Vertex values with a
TypeError; otherwise set the vertex's `vertex_name` to the key and store it. -/
def Vertices.setItem (d : Vertices) (key : String) (value : PyVal) :
    Option PyErr × Vertices :=
  match value with
  | PyVal.vertex v => (none, dictSet d key { v with vertex_name := some key })
  | _ => (some PyErr.typeError, d)

/-- The fresh all-"no successor" row built by `Edges.__setitem__`:
`{k: None for k in value.possible_vertex_states}`. -/
def mkRow (states : List String) : EdgeRow :=
  states.foldl (fun r s => dictSet r s none) []

/-- graph.py `Edges.__setitem__`: reject non-Vertex values with a TypeError;
reject a key different from the vertex's own name with a ValueError;
otherwise (re)set the vertex's row to a fresh row mapping every declared
state to `None`. -/
def Edges.setItem (es : Edges) (key : Option String) (value : PyVal) :
    Option PyErr × Edges :=
  match value with
  | PyVal.vertex v =>
    if key = v.vertex_name then
      (none, dictSet es key (mkRow v.possible_vertex_states))
    else (some PyErr.valueError, es)
  | _ => (some PyErr.typeError, es)

/-- graph.py `Edges.initialize`: `self[vertex.vertex_name] = vertex`. -/
def Edges.initRow (es : Edges) (v : Vertex) : Option PyErr × Edges :=
  Edges.setItem es v.vertex_name (PyVal.vertex v)

/-- graph.py `Graph._initialize_edges`: give every registered vertex its
fresh transition-table row, starting from the empty `Edges()` dict. -/
def initAllEdges (vs : Vertices) : Edges :=
  vs.foldl (fun es p => (Edges.initRow es p.2).2) []

/-- The edge write performed by one `set_flow_chain` loop iteration once both
endpoints are known to be vertices: validate the state against the source's
declared state set (KeyError otherwise), fetch the source's row
(`self[vertex.vertex_name]`, KeyError if absent) and assign
`row[state] = next_vertex.vertex_name`. -/
def setEdgeEntry (es : Edges) (v : Vertex) (s : String) (w : Vertex) :
    Option PyErr × Edges :=
  if s ∈ v.possible_vertex_states then
    match dictLookup es v.vertex_name with
    | some row => (none, dictSet es v.vertex_name (dictSet row s w.vertex_name))
    | none => (some PyErr.keyError, es)
  else (some PyErr.keyError, es)

/-- One `set_flow_chain` loop iteration for a `Vertex` argument `v` followed
by `b :: rest`: an explicit string state consumes the following argument as
the target (IndexError if the argument list ends there), otherwise the edge
runs along the default state to `b`; a non-Vertex target is a TypeError. -/
def flowHead (es : Edges) (v : Vertex) (b : PyVal) (rest : List PyVal) :
    Option PyErr × Edges :=
  match b with
  | PyVal.str s =>
    match rest with
    | [] => (some PyErr.indexError, es)
    | c :: _ =>
      match c with
      | PyVal.vertex w => setEdgeEntry es v s w
      | _ => (some PyErr.typeError, es)
  | PyVal.vertex w => setEdgeEntry es v Vertex.DEFAULT_STATE w
  | _ => (some PyErr.typeError, es)

/-- The `for n, vertex in enumerate(args[:-1])` loop of `set_flow_chain`:
non-Vertex arguments are skipped, a raised exception aborts the remaining
iterations. -/
def flowGo : Edges → List PyVal → Option PyErr × Edges
  | es, [] => (none, es)
  | es, [_] => (none, es)
  | es, a :: b :: rest =>
    match a with
    | PyVal.vertex v =>
      match flowHead es v b rest with
      | (some er, es') => (some er, es')
      | (none, es') => flowGo es' (b :: rest)
    | _ => flowGo es (b :: rest)

/-- graph.py `Edges.set_flow_chain`. -/
def Edges.set_flow_chain (es : Edges) (args : List PyVal) : Option PyErr × Edges :=
  flowGo es args

/-- A sequence of `set_flow_chain` calls as performed by a `set_edges`
implementation during wiring. -/
def applyChains (es : Edges) (chains : List (List PyVal)) : Edges :=
  chains.foldl (fun e c => (Edges.set_flow_chain e c).2) es

/-- The engine state of a `Graph` (graph.py `Graph.__init__`): the child
vertex collection, the transition table, the designated starting and restart
vertices and the active-vertex cursor.  The cursor is identified by the
vertex's name inside `vertices` (the `Vertices` collection keeps every
stored vertex's `vertex_name` equal to its key, and `Graph.step` re-points
the cursor at `self.vertices[next_vertex_name]`).  A `Graph` is itself a
`Vertex` in Python; the inherited vertex half plays no role in the claims
below and is omitted. -/
structure Graph where
  vertices : Vertices
  edges : Edges
  starting_vertex : Option String
  restarting_vertex : Option String
  active_vertex : Option String

/-- graph.py `Graph.step`: follow the edge out of the active vertex.  Reads
`self.edges[vertex.vertex_name][vertex.vertex_state]`; a missing key at
either level is a KeyError, the `None` successor clears the cursor, and a
successor name re-points the cursor at `self.vertices[next_vertex_name]`
(KeyError if no such vertex is registered). -/
def Graph.step (g : Graph) : Except PyErr Graph :=
  match g.active_vertex with
  | none => Except.ok g
  | some nm =>
    match dictLookup g.vertices nm with
    | none => Except.error PyErr.keyError
    | some vertex =>
      match dictLookup g.edges vertex.vertex_name with
      | none => Except.error PyErr.keyError
      | some row =>
        match dictLookup row vertex.vertex_state with
        | none => Except.error PyErr.keyError
        | some none => Except.ok { g with active_vertex := none }
        | some (some next_vertex_name) =>
          match dictLookup g.vertices next_vertex_name with
          | none => Except.error PyErr.keyError
          | some _ => Except.ok { g with active_vertex := some next_vertex_name }

/-- The outcome of the `while self.active_vertex is not None` loop of
`Graph.function`, run with a fuel bound on the number of iterations:
`done g k` means the loop exited normally after exactly `k` child-vertex
executions leaving graph state `g`, `err e` that an exception was raised,
and `fuelOut` that the loop was still running after `fuel` iterations. -/
inductive RunOutcome where
  | done (g : Graph) (count : Nat)
  | err (e : PyErr)
  | fuelOut

/-- The execution loop of graph.py `Graph.function`: while the cursor is
non-empty, execute the active vertex (`self.active_vertex.execute()` — the
executed object is the one stored in the collection, so its updated state is
written back there) and advance via `Graph.step`.  After the loop Python
collects `get_output()`; that read-only step is not modelled. -/
def Graph.functionLoop (fuel : Nat) (g : Graph) : RunOutcome :=
  match g.active_vertex with
  | none => RunOutcome.done g 0
  | some nm =>
    match fuel with
    | 0 => RunOutcome.fuelOut
    | f + 1 =>
      match dictLookup g.vertices nm with
      | none => RunOutcome.err PyErr.keyError
      | some v =>
        match Graph.step { g with vertices := dictSet g.vertices nm v.execute } with
        | Except.error e => RunOutcome.err e
        | Except.ok g2 =>
          match Graph.functionLoop f g2 with
          | RunOutcome.done gf k => RunOutcome.done gf (k + 1)
          | r => r

/-- graph.py `Graph.reset`: raise a ValueError if the cursor is non-empty
(the raise is the first statement, so the graph is left untouched);
otherwise set the cursor to the restart vertex.  (A missing restart vertex
only logs a warning.) -/
def Graph.reset (g : Graph) : Option PyErr × Graph :=
  match g.active_vertex with
  | some _ => (some PyErr.valueError, g)
  | none => (none, { g with active_vertex := g.restarting_vertex })

/-- graph.py `Graph.__init__`, with the abstract subclass hooks supplied as
arguments: `vs` is the vertex collection built by `set_vertices`, `wire` the
`set_edges` wiring (run on the freshly initialized table), and `sv`, `rv`
the starting and restart vertices chosen during wiring. `wire_data_flow`
only binds IO and is not modelled.  A raised wiring exception aborts
construction; otherwise the cursor is set to the starting vertex, and the
Boolean records whether the missing-starting-vertex warning was logged. -/
def buildGraph (vs : Vertices) (wire : Edges → Option PyErr × Edges)
    (sv rv : Option String) : Except PyErr (Graph × Bool) :=
  match wire (initAllEdges vs) with
  | (some er, _) => Except.error er
  | (none, es) =>
    Except.ok ({ vertices := vs
                 edges := es
                 starting_vertex := sv
                 restarting_vertex := rv
                 active_vertex := sv }, sv.isNone)

/-- A graph as produced by the standard construction protocol: vertices
registered first, every row initialized by `_initialize_edges`, and all
control-flow wiring done through a sequence of `set_flow_chain` calls. -/
def protocolGraph (vs : Vertices) (chains : List (List PyVal))
    (sv rv : Option String) : Graph :=
  { vertices := vs
    edges := applyChains (initAllEdges vs) chains
    starting_vertex := sv
    restarting_vertex := rv
    active_vertex := sv }

theorem mkRow_foldl_lookup (sts : List String) (r : EdgeRow) (s : String) :
    dictLookup (sts.foldl (fun r s => dictSet r s none) r) s =
      if s ∈ sts then some none else dictLookup r s := by
  induction sts generalizing r with
  | nil => simp
  | cons s0 t ih =>
    simp only [List.foldl_cons]
    rw [ih]
    by_cases hs : s ∈ t
    · simp [hs]
    · by_cases h0 : s = s0
      · subst h0
        simp [hs, dictLookup_dictSet_self]
      · simp [hs, h0, dictLookup_dictSet_ne _ _ _ _ h0]

/-- The fresh row maps exactly the declared states, each to `None`. -/
theorem mkRow_lookup (sts : List String) (s : String) :
    dictLookup (mkRow sts) s = if s ∈ sts then some none else none := by
  rw [mkRow, mkRow_foldl_lookup]
  rfl

theorem mem_dictKeys_mkRow (sts : List String) (s : String) :
    s ∈ dictKeys (mkRow sts) ↔ s ∈ sts := by
  rw [mem_dictKeys_iff_lookup]
  constructor
  · rintro ⟨a, ha⟩
    rw [mkRow_lookup] at ha
    by_cases h : s ∈ sts
    · exact h
    · simp [h] at ha
  · intro h
    exact ⟨none, by simp [mkRow_lookup, h]⟩

/-- `Edges.initialize` never raises: its key is the vertex's own name. -/
theorem initRow_eq (es : Edges) (v : Vertex) :
    Edges.initRow es v =
      (none, dictSet es v.vertex_name (mkRow v.possible_vertex_states)) := by
  simp [Edges.initRow, Edges.setItem]

theorem initFold_lookup_notmem (t : Vertices) : ∀ (es : Edges) (nm : String),
    (∀ p ∈ t, p.2.vertex_name = some p.1) → nm ∉ dictKeys t →
    dictLookup (t.foldl (fun es p => (Edges.initRow es p.2).2) es) (some nm) =
      dictLookup es (some nm) := by
  induction t with
  | nil =>
    intro es nm _ _
    simp
  | cons p t ih =>
    intro es nm hnames h
    obtain ⟨k0, v0⟩ := p
    have hname0 : v0.vertex_name = some k0 := hnames (k0, v0) (List.mem_cons_self _ _)
    have h' : ¬(nm = k0 ∨ nm ∈ dictKeys t) := by simpa [dictKeys] using h
    push_neg at h'
    have hstep : (Edges.initRow es v0).2 =
        dictSet es (some k0) (mkRow v0.possible_vertex_states) := by
      rw [initRow_eq, hname0]
    simp only [List.foldl_cons]
    rw [hstep, ih _ nm (fun q hq => hnames q (List.mem_cons_of_mem _ hq)) h'.2]
    apply dictLookup_dictSet_ne
    intro he
    injection he with he2
    exact h'.1 he2

theorem initAllEdges_fold_lookup (t : Vertices) : ∀ (es : Edges) (nm : String) (v : Vertex),
    (∀ p ∈ t, p.2.vertex_name = some p.1) → (dictKeys t).Nodup → (nm, v) ∈ t →
    dictLookup (t.foldl (fun es p => (Edges.initRow es p.2).2) es) (some nm) =
      some (mkRow v.possible_vertex_states) := by
  induction t with
  | nil =>
    intro es nm v _ _ hmem
    simp at hmem
  | cons p t ih =>
    intro es nm v hnames hnodup hmem
    obtain ⟨k0, v0⟩ := p
    have hname0 : v0.vertex_name = some k0 := hnames (k0, v0) (List.mem_cons_self _ _)
    have hstep : (Edges.initRow es v0).2 =
        dictSet es (some k0) (mkRow v0.possible_vertex_states) := by
      rw [initRow_eq, hname0]
    have hnd : k0 ∉ dictKeys t ∧ (dictKeys t).Nodup := by simpa [dictKeys] using hnodup
    simp only [List.foldl_cons]
    rw [hstep]
    rcases List.mem_cons.mp hmem with hm | hm
    · injection hm with h1 h2
      subst h1
      subst h2
      rw [initFold_lookup_notmem t _ _ (fun q hq => hnames q (List.mem_cons_of_mem _ hq)) hnd.1]
      exact dictLookup_dictSet_self ..
    · exact ih _ nm v (fun q hq => hnames q (List.mem_cons_of_mem _ hq)) hnd.2 hm

/-- After `_initialize_edges`, each registered vertex's row is exactly the
fresh all-`None` row over its declared states. -/
theorem initAllEdges_lookup (vs : Vertices) (nm : String) (v : Vertex)
    (hnames : ∀ p ∈ vs, p.2.vertex_name = some p.1)
    (hnodup : (dictKeys vs).Nodup) (hmem : (nm, v) ∈ vs) :
    dictLookup (initAllEdges vs) (some nm) = some (mkRow v.possible_vertex_states) :=
  initAllEdges_fold_lookup vs [] nm v hnames hnodup hmem

/-- The transition-table invariant of a wired graph: every registered vertex
has a row, the row's key list is that of its freshly initialized row (so its
key set is the vertex's declared state set), and every non-`None` successor
entry names a registered vertex. -/
def edgesInv (es : Edges) (vs : Vertices) : Prop :=
  ∀ p ∈ vs, ∃ row, dictLookup es (some p.1) = some row ∧
    dictKeys row = dictKeys (mkRow p.2.possible_vertex_states) ∧
    (∀ s t, dictLookup row s = some (some t) → t ∈ dictKeys vs)

theorem edgesInv_init (vs : Vertices)
    (hnames : ∀ p ∈ vs, p.2.vertex_name = some p.1)
    (hnodup : (dictKeys vs).Nodup) :
    edgesInv (initAllEdges vs) vs := by
  intro p hp
  refine ⟨mkRow p.2.possible_vertex_states,
    initAllEdges_lookup vs p.1 p.2 hnames hnodup hp, rfl, ?_⟩
  intro s t hst
  rw [mkRow_lookup] at hst
  by_cases h : s ∈ p.2.possible_vertex_states
  · simp [h] at hst
  · simp [h] at hst

theorem edgesInv_setEdgeEntry (es : Edges) (vs : Vertices) (v w : Vertex) (s : String)
    (hnodup : (dictKeys vs).Nodup)
    (hinv : edgesInv es vs)
    (hv : ∃ nm, v.vertex_name = some nm ∧ dictLookup vs nm = some v)
    (hw : ∃ nm, w.vertex_name = some nm ∧ dictLookup vs nm = some w) :
    edgesInv (setEdgeEntry es v s w).2 vs := by
  by_cases hs : s ∈ v.possible_vertex_states
  · obtain ⟨nm, hvn, hvl⟩ := hv
    have hvm : (nm, v) ∈ vs := dictLookup_mem _ _ _ hvl
    obtain ⟨row, hrow, hkeys, hsucc⟩ := hinv (nm, v) hvm
    have hlook : dictLookup es (some nm) = some row := hrow
    have hres : (setEdgeEntry es v s w).2 =
        dictSet es (some nm) (dictSet row s w.vertex_name) := by
      simp [setEdgeEntry, hs, hvn, hlook]
    rw [hres]
    intro q hq
    by_cases hqnm : q.1 = nm
    · have hqv : q.2 = v := by
        have hlq := dictLookup_of_mem_nodup vs q.1 q.2 hnodup hq
        rw [hqnm, hvl] at hlq
        exact Option.some_inj.mp hlq.symm
      refine ⟨dictSet row s w.vertex_name, ?_, ?_, ?_⟩
      · rw [hqnm]
        exact dictLookup_dictSet_self ..
      · rw [dictKeys_dictSet_of_mem]
        · rw [hkeys, hqv]
        · rw [hkeys]
          exact (mem_dictKeys_mkRow ..).mpr hs
      · intro s' t' hst'
        by_cases hss : s' = s
        · subst hss
          rw [dictLookup_dictSet_self] at hst'
          injection hst' with he
          obtain ⟨nmw, hwn, hwl⟩ := hw
          rw [hwn] at he
          injection he with he2
          subst he2
          exact (mem_dictKeys_iff_lookup vs nmw).mpr ⟨w, hwl⟩
        · rw [dictLookup_dictSet_ne _ _ _ _ hss] at hst'
          exact hsucc s' t' hst'
    · have hne : dictLookup (dictSet es (some nm) (dictSet row s w.vertex_name)) (some q.1) =
          dictLookup es (some q.1) := by
        apply dictLookup_dictSet_ne
        intro he
        injection he with he2
        exact hqnm he2
      rw [hne]
      exact hinv q hq
  · have hres : (setEdgeEntry es v s w).2 = es := by simp [setEdgeEntry, hs]
    rw [hres]
    exact hinv

/-- All `Vertex` arguments of a `set_flow_chain` call are vertices registered
in the graph's own collection (as the construction protocol wires them). -/
def argsRegistered (vs : Vertices) (args : List PyVal) : Prop :=
  ∀ v : Vertex, PyVal.vertex v ∈ args →
    ∃ nm, v.vertex_name = some nm ∧ dictLookup vs nm = some v

theorem edgesInv_flowHead (es : Edges) (vs : Vertices) (v : Vertex) (b : PyVal)
    (rest : List PyVal) (hnodup : (dictKeys vs).Nodup) (hinv : edgesInv es vs)
    (hv : ∃ nm, v.vertex_name = some nm ∧ dictLookup vs nm = some v)
    (hreg : argsRegistered vs (b :: rest)) :
    edgesInv (flowHead es v b rest).2 vs := by
  cases b with
  | str s =>
    cases rest with
    | nil => exact hinv
    | cons c rest2 =>
      cases c with
      | vertex w =>
        exact edgesInv_setEdgeEntry es vs v w s hnodup hinv hv (hreg w (by simp))
      | str s2 => exact hinv
      | data d2 => exact hinv
  | vertex w =>
    exact edgesInv_setEdgeEntry es vs v w Vertex.DEFAULT_STATE hnodup hinv hv
      (hreg w (by simp))
  | data d => exact hinv

theorem edgesInv_flowGo (vs : Vertices) (hnodup : (dictKeys vs).Nodup) :
    ∀ (args : List PyVal) (es : Edges), edgesInv es vs → argsRegistered vs args →
    edgesInv (flowGo es args).2 vs := by
  intro args
  induction args with
  | nil =>
    intro es hinv _
    exact hinv
  | cons a tl ih =>
    intro es hinv hreg
    cases tl with
    | nil => exact hinv
    | cons b rest =>
      have hreg' : argsRegistered vs (b :: rest) :=
        fun v hvm => hreg v (List.mem_cons_of_mem _ hvm)
      cases a with
      | vertex v =>
        have hres : edgesInv (flowHead es v b rest).2 vs :=
          edgesInv_flowHead es vs v b rest hnodup hinv (hreg v (by simp)) hreg'
        cases hfh : flowHead es v b rest with
        | mk err es' =>
          rw [hfh] at hres
          cases err with
          | some er =>
            simp only [flowGo, hfh]
            exact hres
          | none =>
            simp only [flowGo, hfh]
            exact ih es' hres hreg'
      | str s => exact ih es hinv hreg'
      | data d => exact ih es hinv hreg'

/-- The invariant survives a whole sequence of `set_flow_chain` calls. -/
theorem edgesInv_applyChains (vs : Vertices) (hnodup : (dictKeys vs).Nodup) :
    ∀ (chains : List (List PyVal)) (es : Edges), edgesInv es vs →
    (∀ c ∈ chains, argsRegistered vs c) →
    edgesInv (applyChains es chains) vs := by
  intro chains
  induction chains with
  | nil =>
    intro es hinv _
    exact hinv
  | cons c tl ih =>
    intro es hinv hreg
    simp only [applyChains, List.foldl_cons]
    exact ih _ (edgesInv_flowGo vs hnodup c es hinv (hreg c (by simp)))
      (fun c' hc' => hreg c' (List.mem_cons_of_mem _ hc'))

theorem Vertex.execute_vertex_name (v : Vertex) :
    (Vertex.execute v).vertex_name = v.vertex_name := rfl

theorem Vertex.execute_vertex_state (v : Vertex) :
    (Vertex.execute v).vertex_state = v.vertex_state := rfl

theorem Vertex.execute_possible_vertex_states (v : Vertex) :
    (Vertex.execute v).possible_vertex_states = v.possible_vertex_states := rfl

/-- Well-formedness of the vertex collection as maintained by `Vertices`
insertion (name synchronization, unique keys) and by the `vertex_state`
setter (only declared states are admitted). -/
def verticesWF (vs : Vertices) : Prop :=
  (dictKeys vs).Nodup ∧
  ∀ p ∈ vs, p.2.vertex_name = some p.1 ∧ p.2.vertex_state ∈ p.2.possible_vertex_states

/-- The active-vertex cursor, when non-empty, points at a registered vertex. -/
def cursorWF (g : Graph) : Prop :=
  ∀ nm, g.active_vertex = some nm → nm ∈ dictKeys g.vertices

/-- The run-time invariant of a protocol-constructed graph. -/
def GoodGraph (g : Graph) : Prop :=
  verticesWF g.vertices ∧ edgesInv g.edges g.vertices ∧ cursorWF g

theorem step_ok_of_good (g : Graph) (h : GoodGraph g) :
    ∃ g', Graph.step g = Except.ok g' ∧ GoodGraph g' ∧
      g'.vertices = g.vertices ∧ g'.edges = g.edges := by
  obtain ⟨hv, he, hc⟩ := h
  cases ha : g.active_vertex with
  | none =>
    refine ⟨g, ?_, ⟨hv, he, hc⟩, rfl, rfl⟩
    simp [Graph.step, ha]
  | some nm =>
    have hmemk : nm ∈ dictKeys g.vertices := hc nm ha
    obtain ⟨v, hvl⟩ := (mem_dictKeys_iff_lookup _ _).mp hmemk
    have hvm : (nm, v) ∈ g.vertices := dictLookup_mem _ _ _ hvl
    obtain ⟨hname, hstate⟩ := hv.2 (nm, v) hvm
    obtain ⟨row, hrow, hkeys, hsucc⟩ := he (nm, v) hvm
    have hsk : v.vertex_state ∈ dictKeys row := by
      rw [hkeys]
      exact (mem_dictKeys_mkRow ..).mpr hstate
    obtain ⟨r, hr⟩ := (mem_dictKeys_iff_lookup _ _).mp hsk
    have hrowl : dictLookup g.edges v.vertex_name = some row := by rw [hname]; exact hrow
    cases r with
    | none =>
      refine ⟨{ g with active_vertex := none }, ?_, ⟨hv, he, ?_⟩, rfl, rfl⟩
      · simp [Graph.step, ha, hvl, hrowl, hr]
      · intro nm2 h2
        simp at h2
    | some t =>
      have ht : t ∈ dictKeys g.vertices := hsucc _ _ hr
      obtain ⟨w, hwl⟩ := (mem_dictKeys_iff_lookup _ _).mp ht
      refine ⟨{ g with active_vertex := some t }, ?_, ⟨hv, he, ?_⟩, rfl, rfl⟩
      · simp [Graph.step, ha, hvl, hrowl, hr, hwl]
      · intro nm2 h2
        simp at h2
        subst h2
        exact ht

theorem good_exec_update (g : Graph) (nm : String) (v : Vertex)
    (h : GoodGraph g) (hvl : dictLookup g.vertices nm = some v) :
    GoodGraph { g with vertices := dictSet g.vertices nm (Vertex.execute v) } := by
  obtain ⟨⟨hnd, hent⟩, he, hc⟩ := h
  have hmemk : nm ∈ dictKeys g.vertices := (mem_dictKeys_iff_lookup _ _).mpr ⟨v, hvl⟩
  have hkeq : dictKeys (dictSet g.vertices nm (Vertex.execute v)) = dictKeys g.vertices :=
    dictKeys_dictSet_of_mem _ _ _ hmemk
  have hvm : (nm, v) ∈ g.vertices := dictLookup_mem _ _ _ hvl
  obtain ⟨hname, hstate⟩ := hent (nm, v) hvm
  refine ⟨⟨?_, ?_⟩, ?_, ?_⟩
  · rw [hkeq]
    exact hnd
  · intro p hp
    rcases mem_dictSet _ _ _ _ hp with hp | hp
    · subst hp
      exact ⟨hname, hstate⟩
    · exact hent p hp
  · intro p hp
    rcases mem_dictSet _ _ _ _ hp with hp | hp
    · obtain ⟨row, hrow, hkeys, hsucc⟩ := he (nm, v) hvm
      subst hp
      exact ⟨row, hrow, hkeys, fun s t hst => by rw [hkeq]; exact hsucc s t hst⟩
    · obtain ⟨row, hrow, hkeys, hsucc⟩ := he p hp
      exact ⟨row, hrow, hkeys, fun s t hst => by rw [hkeq]; exact hsucc s t hst⟩
  · intro nm2 h2
    have h2' : g.active_vertex = some nm2 := h2
    rw [show ({ g with vertices := dictSet g.vertices nm (Vertex.execute v) } : Graph).vertices =
      dictSet g.vertices nm (Vertex.execute v) from rfl, hkeq]
    exact hc nm2 h2'

theorem functionLoop_none (fuel : Nat) (g : Graph) (ha : g.active_vertex = none) :
    Graph.functionLoop fuel g = RunOutcome.done g 0 := by
  conv_lhs => rw [Graph.functionLoop]
  rw [ha]

theorem functionLoop_zero_active (g : Graph) (nm : String)
    (ha : g.active_vertex = some nm) :
    Graph.functionLoop 0 g = RunOutcome.fuelOut := by
  conv_lhs => rw [Graph.functionLoop]
  rw [ha]

theorem functionLoop_eq_succ (f : Nat) (g : Graph) (nm : String)
    (ha : g.active_vertex = some nm) :
    Graph.functionLoop (f + 1) g =
      match dictLookup g.vertices nm with
      | none => RunOutcome.err PyErr.keyError
      | some v =>
        match Graph.step { g with vertices := dictSet g.vertices nm (Vertex.execute v) } with
        | Except.error e => RunOutcome.err e
        | Except.ok g2 =>
          match Graph.functionLoop f g2 with
          | RunOutcome.done gf k => RunOutcome.done gf (k + 1)
          | r => r := by
  conv_lhs => rw [Graph.functionLoop]
  rw [ha]

theorem functionLoop_no_err (fuel : Nat) : ∀ (g : Graph), GoodGraph g →
    ∀ e, Graph.functionLoop fuel g ≠ RunOutcome.err e := by
  induction fuel with
  | zero =>
    intro g _ e
    cases ha : g.active_vertex with
    | none => simp [Graph.functionLoop, ha]
    | some nm => simp [Graph.functionLoop, ha]
  | succ f ih =>
    intro g hg e
    cases ha : g.active_vertex with
    | none => simp [functionLoop_none (f + 1) g ha]
    | some nm =>
      have hmemk : nm ∈ dictKeys g.vertices := hg.2.2 nm ha
      obtain ⟨v, hvl⟩ := (mem_dictKeys_iff_lookup _ _).mp hmemk
      have hg1 : GoodGraph { g with vertices := dictSet g.vertices nm (Vertex.execute v) } :=
        good_exec_update g nm v hg hvl
      obtain ⟨g2, hstep, hg2, _, _⟩ := step_ok_of_good _ hg1
      simp only [functionLoop_eq_succ f g nm ha, hvl, hstep]
      cases hr : Graph.functionLoop f g2 with
      | done gf k => simp [hr]
      | err e2 => exact absurd hr (ih g2 hg2 e2)
      | fuelOut => simp [hr]

theorem step_to_none (g : Graph) (nm : String) (v : Vertex) (row : EdgeRow)
    (ha : g.active_vertex = some nm)
    (hvl : dictLookup g.vertices nm = some v)
    (hrow : dictLookup g.edges v.vertex_name = some row)
    (hr : dictLookup row v.vertex_state = some none) :
    Graph.step g = Except.ok { g with active_vertex := none } := by
  simp [Graph.step, ha, hvl, hrow, hr]

theorem step_to_next (g : Graph) (nm : String) (v : Vertex) (row : EdgeRow)
    (t : String) (w : Vertex)
    (ha : g.active_vertex = some nm)
    (hvl : dictLookup g.vertices nm = some v)
    (hrow : dictLookup g.edges v.vertex_name = some row)
    (hr : dictLookup row v.vertex_state = some (some t))
    (hwl : dictLookup g.vertices t = some w) :
    Graph.step g = Except.ok { g with active_vertex := some t } := by
  simp [Graph.step, ha, hvl, hrow, hr, hwl]

/-- The linear-chain scenario on the vertex side: every chain member is a
registered vertex that knows its own name and currently reports the default
state (a chain "with no branches" is wired along default states). -/
def chainVerticesOk (vs : Vertices) (ns : List String) : Prop :=
  ∀ nm ∈ ns, ∃ v, dictLookup vs nm = some v ∧ v.vertex_name = some nm ∧
    v.vertex_state = Vertex.DEFAULT_STATE

/-- The two-level transition-table lookup `edges[name][state]`. -/
def dictLookup2 (es : Edges) (k : Option String) (s : String) : Option (Option String) :=
  match dictLookup es k with
  | some row => dictLookup row s
  | none => none

/-- The linear-chain scenario on the table side: each vertex's row maps the
default state to the next chain member's name, and the last row maps it to
the no-successor marker. -/
def chainSpec (es : Edges) : List String → Prop
  | [] => True
  | [nm] => dictLookup2 es (some nm) Vertex.DEFAULT_STATE = some none
  | nm :: nm2 :: rest =>
    dictLookup2 es (some nm) Vertex.DEFAULT_STATE = some (some nm2) ∧
      chainSpec es (nm2 :: rest)

theorem chainVerticesOk_update (vs : Vertices) (ns : List String) (nm : String)
    (v : Vertex) (h : chainVerticesOk vs ns) (hvl : dictLookup vs nm = some v) :
    chainVerticesOk (dictSet vs nm (Vertex.execute v)) ns := by
  intro nm' hm
  obtain ⟨v', hl', hn', hs'⟩ := h nm' hm
  by_cases he : nm' = nm
  · subst he
    have hv'v : v' = v := Option.some_inj.mp (hl'.symm.trans hvl)
    subst hv'v
    exact ⟨Vertex.execute v', dictLookup_dictSet_self .., hn', hs'⟩
  · exact ⟨v', by rw [dictLookup_dictSet_ne _ _ _ _ he]; exact hl', hn', hs'⟩

theorem chain_run (ns : List String) : ∀ (g : Graph) (fuel : Nat),
    ns ≠ [] →
    chainVerticesOk g.vertices ns →
    chainSpec g.edges ns →
    g.active_vertex = ns.head? →
    ns.length ≤ fuel →
    ∃ g', Graph.functionLoop fuel g = RunOutcome.done g' ns.length ∧
      g'.active_vertex = none := by
  induction ns with
  | nil =>
    intro g fuel hne _ _ _ _
    exact absurd rfl hne
  | cons nm rest ih =>
    intro g fuel _ hcv hcs ha hf
    cases fuel with
    | zero => simp at hf
    | succ f =>
      obtain ⟨v, hvl, hvn, hvs⟩ := hcv nm (by simp)
      have ha' : g.active_vertex = some nm := by simpa using ha
      have hvl1 : dictLookup (dictSet g.vertices nm (Vertex.execute v)) nm =
          some (Vertex.execute v) := dictLookup_dictSet_self ..
      have hcv1 : chainVerticesOk (dictSet g.vertices nm (Vertex.execute v)) (nm :: rest) :=
        chainVerticesOk_update g.vertices (nm :: rest) nm v hcv hvl
      have hen : (Vertex.execute v).vertex_name = some nm := by
        rw [Vertex.execute_vertex_name]
        exact hvn
      have hes : (Vertex.execute v).vertex_state = Vertex.DEFAULT_STATE := by
        rw [Vertex.execute_vertex_state]
        exact hvs
      cases rest with
      | nil =>
        have hc : dictLookup2 g.edges (some nm) Vertex.DEFAULT_STATE = some none := hcs
        obtain ⟨row, hrow, hr⟩ : ∃ row, dictLookup g.edges (some nm) = some row ∧
            dictLookup row Vertex.DEFAULT_STATE = some none := by
          unfold dictLookup2 at hc
          cases hrow : dictLookup g.edges (some nm) with
          | none => rw [hrow] at hc; exact absurd hc (by simp)
          | some row => exact ⟨row, rfl, by rw [hrow] at hc; exact hc⟩
        have ha1 : ({ g with vertices := dictSet g.vertices nm (Vertex.execute v) } : Graph).active_vertex =
            some nm := ha'
        have hvl1' : dictLookup ({ g with vertices := dictSet g.vertices nm (Vertex.execute v) } : Graph).vertices
            nm = some (Vertex.execute v) := hvl1
        have hrow1 : dictLookup ({ g with vertices := dictSet g.vertices nm (Vertex.execute v) } : Graph).edges
            (Vertex.execute v).vertex_name = some row := by
          rw [hen]
          exact hrow
        have hr1 : dictLookup row (Vertex.execute v).vertex_state = some none := by
          rw [hes]
          exact hr
        have hstep : Graph.step { g with vertices := dictSet g.vertices nm (Vertex.execute v) } =
            Except.ok { g with vertices := dictSet g.vertices nm (Vertex.execute v),
                               active_vertex := none } :=
          step_to_none _ nm (Vertex.execute v) row ha1 hvl1' hrow1 hr1
        refine ⟨{ g with vertices := dictSet g.vertices nm (Vertex.execute v),
                         active_vertex := none }, ?_, rfl⟩
        simp only [functionLoop_eq_succ f g nm ha', hvl, hstep]
        rw [functionLoop_none f _ rfl]
        rfl
      | cons nm2 rest2 =>
        obtain ⟨hc, hcs2⟩ := hcs
        obtain ⟨row, hrow, hr⟩ : ∃ row, dictLookup g.edges (some nm) = some row ∧
            dictLookup row Vertex.DEFAULT_STATE = some (some nm2) := by
          unfold dictLookup2 at hc
          cases hrow : dictLookup g.edges (some nm) with
          | none => rw [hrow] at hc; exact absurd hc (by simp)
          | some row => exact ⟨row, rfl, by rw [hrow] at hc; exact hc⟩
        obtain ⟨w, hwl1, _, _⟩ := hcv1 nm2 (by simp)
        have ha1 : ({ g with vertices := dictSet g.vertices nm (Vertex.execute v) } : Graph).active_vertex =
            some nm := ha'
        have hvl1' : dictLookup ({ g with vertices := dictSet g.vertices nm (Vertex.execute v) } : Graph).vertices
            nm = some (Vertex.execute v) := hvl1
        have hrow1 : dictLookup ({ g with vertices := dictSet g.vertices nm (Vertex.execute v) } : Graph).edges
            (Vertex.execute v).vertex_name = some row := by
          rw [hen]
          exact hrow
        have hr1 : dictLookup row (Vertex.execute v).vertex_state = some (some nm2) := by
          rw [hes]
          exact hr
        have hwl1' : dictLookup ({ g with vertices := dictSet g.vertices nm (Vertex.execute v) } : Graph).vertices
            nm2 = some w := hwl1
        have hstep : Graph.step { g with vertices := dictSet g.vertices nm (Vertex.execute v) } =
            Except.ok { g with vertices := dictSet g.vertices nm (Vertex.execute v),
                               active_vertex := some nm2 } :=
          step_to_next _ nm (Vertex.execute v) row nm2 w ha1 hvl1' hrow1 hr1 hwl1'
        have hchain2 : chainVerticesOk
            ({ g with vertices := dictSet g.vertices nm (Vertex.execute v),
                      active_vertex := some nm2 } : Graph).vertices (nm2 :: rest2) :=
          fun nm' hm => hcv1 nm' (List.mem_cons_of_mem _ hm)
        obtain ⟨g', hrun, hend⟩ := ih
          { g with vertices := dictSet g.vertices nm (Vertex.execute v),
                   active_vertex := some nm2 } f
          (by simp) hchain2 hcs2 rfl (by simpa using Nat.succ_le_succ_iff.mp hf)
        refine ⟨g', ?_, hend⟩
        simp only [functionLoop_eq_succ f g nm ha', hvl, hstep]
        rw [hrun]
        rfl

/-- Claim C1: for every Graph whose transition table forms a simple linear
chain of N vertices with no branches (each vertex's row maps its state to
the next vertex's name, the last row maps it to the no-successor marker, and
the cursor starts at the first vertex), the execution loop of
`Graph.function` terminates after exactly N child-vertex executions and the
active-vertex cursor is `None` afterwards. -/
theorem C1_linear_chain_terminates (ns : List String) (g : Graph) (fuel : Nat)
    (hne : ns ≠ []) (hcv : chainVerticesOk g.vertices ns)
    (hcs : chainSpec g.edges ns) (ha : g.active_vertex = ns.head?)
    (hf : ns.length ≤ fuel) :
    ∃ g', Graph.functionLoop fuel g = RunOutcome.done g' ns.length ∧
      g'.active_vertex = none :=
  chain_run ns g fuel hne hcv hcs ha hf

/-- A trivial computation unit for concrete examples. -/
def chainVa : Vertex := Vertex.mk0 (some "a") (fun _ => [])

/-- A second trivial computation unit for concrete examples. -/
def chainVb : Vertex := Vertex.mk0 (some "b") (fun _ => [])

/-- A two-vertex linear chain `a -> b -> None` with the cursor on `a`. -/
def chainGraph : Graph :=
  { vertices := [("a", chainVa), ("b", chainVb)]
    edges := [(some "a", [(Vertex.DEFAULT_STATE, some "b")]),
              (some "b", [(Vertex.DEFAULT_STATE, none)])]
    starting_vertex := some "a"
    restarting_vertex := some "a"
    active_vertex := some "a" }

/-- Witness for C1: the concrete two-vertex chain executes exactly twice and
ends with an empty cursor. -/
theorem C1_witness :
    ∃ g', Graph.functionLoop 2 chainGraph = RunOutcome.done g' 2 ∧
      g'.active_vertex = none :=
  C1_linear_chain_terminates ["a", "b"] chainGraph 2 (by decide)
    (by
      intro nm hm
      rcases List.mem_cons.mp hm with h | hm2
      · subst h
        exact ⟨chainVa, rfl, rfl, rfl⟩
      · rcases List.mem_cons.mp hm2 with h | hm3
        · subst h
          exact ⟨chainVb, rfl, rfl, rfl⟩
        · simp at hm3)
    ⟨rfl, rfl⟩ rfl (by decide)

/-- Claim C2: after `_initialize_edges` has run over all registered vertices,
every registered vertex has a transition-table row keyed by its own name
whose key set is exactly its declared state set, every state initially
mapped to the no-successor marker `None`; and subsequent wiring through
`set_flow_chain` (over the graph's registered vertices) only overwrites
values at existing state keys, so the row's key set is preserved. -/
theorem C2_edges_complete (vs : Vertices)
    (hnames : ∀ p ∈ vs, p.2.vertex_name = some p.1)
    (hnodup : (dictKeys vs).Nodup)
    (chains : List (List PyVal))
    (hreg : ∀ c ∈ chains, argsRegistered vs c) :
    (∀ p ∈ vs, ∃ row, dictLookup (initAllEdges vs) (some p.1) = some row ∧
      (∀ s, dictLookup row s =
        if s ∈ p.2.possible_vertex_states then some none else none)) ∧
    (∀ p ∈ vs, ∃ row', dictLookup (applyChains (initAllEdges vs) chains) (some p.1) =
        some row' ∧
      dictKeys row' = dictKeys (mkRow p.2.possible_vertex_states) ∧
      (∀ s, s ∈ dictKeys row' ↔ s ∈ p.2.possible_vertex_states)) := by
  constructor
  · intro p hp
    refine ⟨mkRow p.2.possible_vertex_states,
      initAllEdges_lookup vs p.1 p.2 hnames hnodup hp, ?_⟩
    intro s
    exact mkRow_lookup ..
  · intro p hp
    have hinv := edgesInv_applyChains vs hnodup chains (initAllEdges vs)
      (edgesInv_init vs hnames hnodup) hreg
    obtain ⟨row', hl, hkeys, _⟩ := hinv p hp
    refine ⟨row', hl, hkeys, ?_⟩
    intro s
    rw [hkeys]
    exact mem_dictKeys_mkRow ..

/-- Witness for C2 on a concrete two-vertex graph wired by one
`set_flow_chain` call. -/
theorem C2_witness :
    (∀ p ∈ ([("a", chainVa), ("b", chainVb)] : Vertices),
      ∃ row, dictLookup (initAllEdges [("a", chainVa), ("b", chainVb)]) (some p.1) =
          some row ∧
        (∀ s, dictLookup row s =
          if s ∈ p.2.possible_vertex_states then some none else none)) ∧
    (∀ p ∈ ([("a", chainVa), ("b", chainVb)] : Vertices),
      ∃ row', dictLookup (applyChains (initAllEdges [("a", chainVa), ("b", chainVb)])
          [[PyVal.vertex chainVa, PyVal.vertex chainVb]]) (some p.1) = some row' ∧
        dictKeys row' = dictKeys (mkRow p.2.possible_vertex_states) ∧
        (∀ s, s ∈ dictKeys row' ↔ s ∈ p.2.possible_vertex_states)) :=
  C2_edges_complete [("a", chainVa), ("b", chainVb)]
    (by
      intro p hp
      rcases List.mem_cons.mp hp with h | hp2
      · subst h
        rfl
      · rcases List.mem_cons.mp hp2 with h | hp3
        · subst h
          rfl
        · simp at hp3)
    (by decide)
    [[PyVal.vertex chainVa, PyVal.vertex chainVb]]
    (by
      intro c hc v hv
      rcases List.mem_cons.mp hc with h | hc2
      · subst h
        rcases List.mem_cons.mp hv with h1 | hv2
        · injection h1 with h2
          subst h2
          exact ⟨"a", rfl, rfl⟩
        · rcases List.mem_cons.mp hv2 with h1 | hv3
          · injection h1 with h2
            subst h2
            exact ⟨"b", rfl, rfl⟩
          · simp at hv3
      · simp at hc2)

/-- The effect of a sequence of collection insertions, as `set_vertices`
implementations perform them. -/
def applyInserts (vs : Vertices) (ops : List (String × PyVal)) : Vertices :=
  ops.foldl (fun d p => (Vertices.setItem d p.1 p.2).2) vs

theorem applyInserts_lookup_ne (ops : List (String × PyVal)) : ∀ (vs : Vertices) (k : String),
    (∀ p ∈ ops, p.1 ≠ k) →
    dictLookup (applyInserts vs ops) k = dictLookup vs k := by
  induction ops with
  | nil =>
    intro vs k _
    rfl
  | cons p t ih =>
    intro vs k hops
    have h1 : dictLookup ((Vertices.setItem vs p.1 p.2).2) k = dictLookup vs k := by
      cases p.2 with
      | vertex v =>
        exact dictLookup_dictSet_ne _ _ _ _ (hops p (List.mem_cons_self _ _)).symm
      | str s => rfl
      | data d0 => rfl
    exact (ih _ k (fun q hq => hops q (List.mem_cons_of_mem _ hq))).trans h1

/-- Claim C3: inserting a Vertex `v` into a `Vertices` collection under key
`k` raises nothing and sets `v.vertex_name` to `k`; the association read
back at `k` has `vertex_name = k`, immediately and after any later
insertions under other keys. -/
theorem C3_insert_sets_name (vs : Vertices) (k : String) (v : Vertex)
    (ops : List (String × PyVal)) (hops : ∀ p ∈ ops, p.1 ≠ k) :
    (Vertices.setItem vs k (PyVal.vertex v)).1 = none ∧
    dictLookup (Vertices.setItem vs k (PyVal.vertex v)).2 k =
      some { v with vertex_name := some k } ∧
    dictLookup (applyInserts (Vertices.setItem vs k (PyVal.vertex v)).2 ops) k =
      some { v with vertex_name := some k } := by
  refine ⟨rfl, dictLookup_dictSet_self .., ?_⟩
  rw [applyInserts_lookup_ne ops _ k hops]
  exact dictLookup_dictSet_self ..

/-- A vertex that has not been inserted anywhere yet (name `None`). -/
def rawV : Vertex := Vertex.mk0 none (fun _ => [])

/-- Witness for C3: inserting the nameless vertex under "a" names it "a",
and the read-back still holds after a later insertion under "b". -/
theorem C3_witness :
    (Vertices.setItem [] "a" (PyVal.vertex rawV)).1 = none ∧
    dictLookup (Vertices.setItem [] "a" (PyVal.vertex rawV)).2 "a" =
      some { rawV with vertex_name := some "a" } ∧
    dictLookup (applyInserts (Vertices.setItem [] "a" (PyVal.vertex rawV)).2
      [("b", PyVal.vertex chainVb)]) "a" =
      some { rawV with vertex_name := some "a" } :=
  C3_insert_sets_name [] "a" rawV [("b", PyVal.vertex chainVb)] (by decide)

/-- Claim C4: `reset()` with a non-empty active-vertex cursor raises the
ValueError and leaves the graph unchanged; with an empty cursor it raises
nothing and sets the cursor to the restart vertex. -/
theorem C4_reset_precondition (g : Graph) :
    (g.active_vertex ≠ none → Graph.reset g = (some PyErr.valueError, g)) ∧
    (g.active_vertex = none →
      Graph.reset g = (none, { g with active_vertex := g.restarting_vertex })) := by
  constructor
  · intro h
    cases ha : g.active_vertex with
    | none => exact absurd ha h
    | some nm => simp [Graph.reset, ha]
  · intro h
    simp [Graph.reset, h]

/-- A graph still mid-run (cursor non-empty). -/
def resetBusy : Graph :=
  { vertices := []
    edges := []
    starting_vertex := some "a"
    restarting_vertex := some "r"
    active_vertex := some "a" }

/-- The same graph at rest (cursor empty). -/
def resetIdle : Graph :=
  { vertices := []
    edges := []
    starting_vertex := some "a"
    restarting_vertex := some "r"
    active_vertex := none }

/-- Witness for C4 on the two concrete graphs. -/
theorem C4_witness :
    Graph.reset resetBusy = (some PyErr.valueError, resetBusy) ∧
    Graph.reset resetIdle =
      (none, { resetIdle with active_vertex := resetIdle.restarting_vertex }) :=
  ⟨(C4_reset_precondition resetBusy).1 (by simp [resetBusy]),
   (C4_reset_precondition resetIdle).2 rfl⟩

/-- Counterexample to claim C5 ("each call to `execute()` increments the
vertex's `clock` by exactly one"): executing a freshly initialized vertex
leaves its clock at 0, not 1 — no statement of `Vertex.execute` (resolve
input, run `function`, push outputs via `update_and_archive`) touches
`clock`. -/
theorem C5_counterexample :
    ¬ ((Vertex.execute chainVa).clock = chainVa.clock + 1) := by
  decide

/-- Claim C5 as amended: `execute()` resolves inputs, invokes the vertex's
computation and pushes the produced outputs, but leaves the step counter
`clock` unchanged (the source initializes `clock` to 0 in `__init__` and
never increments it). -/
theorem C5_execute_clock_unchanged (v : Vertex) :
    (Vertex.execute v).clock = v.clock := rfl

/-- Claim C6: a `set_flow_chain` request for an edge out of source vertex
`v` on an explicitly named state `s` with `s` outside `v`'s declared state
set raises a KeyError and does not set that edge — every edge write goes
through `setEdgeEntry`, which rejects the state before writing, and the
raised error aborts the call with the table unchanged. -/
theorem C6_flow_chain_bad_state (es : Edges) (v w : Vertex) (s : String)
    (rest : List PyVal) (h : s ∉ v.possible_vertex_states) :
    setEdgeEntry es v s w = (some PyErr.keyError, es) ∧
    Edges.set_flow_chain es (PyVal.vertex v :: PyVal.str s :: PyVal.vertex w :: rest) =
      (some PyErr.keyError, es) := by
  have h1 : setEdgeEntry es v s w = (some PyErr.keyError, es) := by
    simp [setEdgeEntry, h]
  refine ⟨h1, ?_⟩
  simp only [Edges.set_flow_chain, flowGo, flowHead, h1]

/-- Witness for C6: state "maybe" is not declared by the single-state
vertex, so chaining on it raises KeyError and leaves the empty table
untouched. -/
theorem C6_witness :
    Edges.set_flow_chain []
      [PyVal.vertex chainVa, PyVal.str "maybe", PyVal.vertex chainVb] =
      (some PyErr.keyError, []) :=
  (C6_flow_chain_bad_state [] chainVa chainVb "maybe" [] (by decide)).2

/-- Claim C7: constructing a Graph whose set-up leaves the starting vertex
unset is non-fatal: construction completes with only the logged warning, the
cursor is left `None`, and a subsequent `execute()` performs zero
child-vertex executions (the loop exits immediately; only output collection
runs). -/
theorem C7_no_starting_vertex (vs : Vertices) (wire : Edges → Option PyErr × Edges)
    (rv : Option String) (hw : (wire (initAllEdges vs)).1 = none) :
    ∃ g : Graph, buildGraph vs wire none rv = Except.ok (g, true) ∧
      g.active_vertex = none ∧
      ∀ fuel, Graph.functionLoop fuel g = RunOutcome.done g 0 := by
  cases hwres : wire (initAllEdges vs) with
  | mk err es =>
    rw [hwres] at hw
    simp only [Prod.fst] at hw
    subst hw
    refine ⟨{ vertices := vs, edges := es, starting_vertex := none,
              restarting_vertex := rv, active_vertex := none }, ?_, rfl, ?_⟩
    · simp [buildGraph, hwres]
    · intro fuel
      exact functionLoop_none fuel _ rfl

/-- Witness for C7: the one-vertex graph built with no starting vertex. -/
theorem C7_witness :
    ∃ g : Graph, buildGraph [("a", chainVa)] (fun e => (none, e)) none none =
        Except.ok (g, true) ∧
      g.active_vertex = none ∧
      ∀ fuel, Graph.functionLoop fuel g = RunOutcome.done g 0 :=
  C7_no_starting_vertex [("a", chainVa)] (fun e => (none, e)) none rfl

/-- Claim C8: inserting a non-Vertex value into a `Vertices` collection, or
establishing an `Edges` row for a non-Vertex value, raises a TypeError and
leaves the collection unchanged. -/
theorem C8_nonvertex_rejected (vs : Vertices) (es : Edges) (k : String)
    (k2 : Option String) (x : PyVal) (h : x.isVertex = false) :
    Vertices.setItem vs k x = (some PyErr.typeError, vs) ∧
    Edges.setItem es k2 x = (some PyErr.typeError, es) := by
  cases x with
  | vertex v => simp [PyVal.isVertex] at h
  | str s => exact ⟨rfl, rfl⟩
  | data d => exact ⟨rfl, rfl⟩

/-- Witness for C8 with a string value. -/
theorem C8_witness :
    Vertices.setItem [] "k" (PyVal.str "oops") = (some PyErr.typeError, []) ∧
    Edges.setItem [] (some "k") (PyVal.str "oops") = (some PyErr.typeError, []) :=
  C8_nonvertex_rejected [] [] "k" (some "k") (PyVal.str "oops") rfl

/-- Claim C9: for a graph built through the standard protocol (all child
vertices registered with synchronized names and admissible current states,
all wiring done through `set_flow_chain` over registered vertices, the
cursor on a registered vertex), the lookups performed by `Graph.step` —
`edges[vertex.vertex_name][vertex.vertex_state]` and
`vertices[next_vertex_name]` — never raise a KeyError, and neither does any
iteration of the execution loop. -/
theorem C9_step_lookups_safe (vs : Vertices)
    (hnodup : (dictKeys vs).Nodup)
    (hnames : ∀ p ∈ vs, p.2.vertex_name = some p.1)
    (hstates : ∀ p ∈ vs, p.2.vertex_state ∈ p.2.possible_vertex_states)
    (chains : List (List PyVal))
    (hreg : ∀ c ∈ chains, argsRegistered vs c)
    (sv rv : Option String)
    (hsv : ∀ nm, sv = some nm → nm ∈ dictKeys vs) :
    (∃ g', Graph.step (protocolGraph vs chains sv rv) = Except.ok g') ∧
    (∀ fuel e, Graph.functionLoop fuel (protocolGraph vs chains sv rv) ≠
      RunOutcome.err e) := by
  have hgood : GoodGraph (protocolGraph vs chains sv rv) := by
    refine ⟨⟨hnodup, fun p hp => ⟨hnames p hp, hstates p hp⟩⟩, ?_, ?_⟩
    · exact edgesInv_applyChains vs hnodup chains (initAllEdges vs)
        (edgesInv_init vs hnames hnodup) hreg
    · intro nm h
      exact hsv nm h
  obtain ⟨g', hstep, _, _, _⟩ := step_ok_of_good _ hgood
  exact ⟨⟨g', hstep⟩, fun fuel e => functionLoop_no_err fuel _ hgood e⟩

/-- Witness for C9 on the concrete two-vertex protocol graph. -/
theorem C9_witness :
    (∃ g', Graph.step (protocolGraph [("a", chainVa), ("b", chainVb)]
      [[PyVal.vertex chainVa, PyVal.vertex chainVb]] (some "a") none) =
        Except.ok g') ∧
    (∀ fuel e, Graph.functionLoop fuel (protocolGraph [("a", chainVa), ("b", chainVb)]
      [[PyVal.vertex chainVa, PyVal.vertex chainVb]] (some "a") none) ≠
        RunOutcome.err e) :=
  C9_step_lookups_safe [("a", chainVa), ("b", chainVb)] (by decide)
    (by
      intro p hp
      rcases List.mem_cons.mp hp with h | hp2
      · subst h
        rfl
      · rcases List.mem_cons.mp hp2 with h | hp3
        · subst h
          rfl
        · simp at hp3)
    (by decide)
    [[PyVal.vertex chainVa, PyVal.vertex chainVb]]
    (by
      intro c hc v hv
      rcases List.mem_cons.mp hc with h | hc2
      · subst h
        rcases List.mem_cons.mp hv with h1 | hv2
        · injection h1 with h2
          subst h2
          exact ⟨"a", rfl, rfl⟩
        · rcases List.mem_cons.mp hv2 with h1 | hv3
          · injection h1 with h2
            subst h2
            exact ⟨"b", rfl, rfl⟩
          · simp at hv3
      · simp at hc2)
    (some "a") none
    (by
      intro nm h
      injection h with h2
      subst h2
      decide)

/-- Claim C10: re-inserting a vertex already present in an `Edges` table
(directly or via `Edges.initialize` under its own name) unconditionally
replaces its whole row with a fresh row mapping every declared state to the
no-successor marker `None`, discarding previously wired successors. -/
theorem C10_reinsert_resets_row (es : Edges) (v : Vertex) (nm : String)
    (row : EdgeRow)
    (hname : v.vertex_name = some nm)
    (hrow : dictLookup es (some nm) = some row) :
    Edges.setItem es (some nm) (PyVal.vertex v) =
      (none, dictSet es (some nm) (mkRow v.possible_vertex_states)) ∧
    Edges.initRow es v =
      (none, dictSet es (some nm) (mkRow v.possible_vertex_states)) ∧
    dictLookup (dictSet es (some nm) (mkRow v.possible_vertex_states)) (some nm) =
      some (mkRow v.possible_vertex_states) ∧
    (∀ s, dictLookup (mkRow v.possible_vertex_states) s =
      if s ∈ v.possible_vertex_states then some none else none) := by
  refine ⟨?_, ?_, dictLookup_dictSet_self .., fun s => mkRow_lookup ..⟩
  · simp [Edges.setItem, hname]
  · rw [initRow_eq, hname]

/-- Witness for C10: re-initializing the vertex "a", whose row already maps
"next" to "b", resets that row to all-`None`. -/
theorem C10_witness :
    Edges.initRow [(some "a", [(Vertex.DEFAULT_STATE, some "b")])] chainVa =
      (none, dictSet [(some "a", [(Vertex.DEFAULT_STATE, some "b")])] (some "a")
        (mkRow chainVa.possible_vertex_states)) :=
  (C10_reinsert_resets_row [(some "a", [(Vertex.DEFAULT_STATE, some "b")])] chainVa
    "a" [(Vertex.DEFAULT_STATE, some "b")] rfl rfl).2.1
